import Mathlib

/-!
Verification of the `id-cache` repository: an id allocator (`IdCache`), a
dense storage pairing the allocator with a backing vector (`CacheStorage`),
and a compacting storage with deferred removal (`ShrinkableStorage`).

The embedding follows the single-threaded sources
(`src/id_cache.rs`, `src/cache_storage.rs`, `src/shrinkable_storage.rs`).
Rust `usize` ids are modelled as `Nat` (the code never subtracts below zero,
so no wraparound arises), `Vec<T>` as `List T` with push/pop at the list end,
and `BTreeSet<Id>` as a strictly ascending `List Nat`.  A Rust `panic!` /
failed `assert!` is modelled by an `Option` result being `none`.
-/

/-- Embedding of `IdCache` (src/id_cache.rs): `top_id` is the watermark of
ids never yet issued, `free_ids` is the `Vec` of released ids, kept in the
`Vec`'s order (push and pop happen at the end of the list). -/
structure IdCache where
  top_id : Nat
  free_ids : List Nat
  deriving Repr, DecidableEq

/-- Embedding of `IdCache::new`. -/
def IdCache.new : IdCache := ⟨0, []⟩

/-- Embedding of `IdCache::with_capacity`: `top_id = capacity` and the free
ids are `(0..capacity).rev().collect()`, i.e. `[capacity-1, ..., 1, 0]`. -/
def IdCache.with_capacity (capacity : Nat) : IdCache :=
  ⟨capacity, (List.range capacity).reverse⟩

/-- Embedding of `IdCache::try_acquire_id`: `self.free_ids.pop()`, which
removes and returns the last element of the `Vec` (or `None` when empty). -/
def IdCache.try_acquire_id (c : IdCache) : Option Nat × IdCache :=
  match c.free_ids.getLast? with
  | some id => (some id, ⟨c.top_id, c.free_ids.dropLast⟩)
  | none => (none, c)

/-- Embedding of `IdCache::acquire_id`: take a free id if the pool has one,
otherwise return the old `top_id` and increment it. -/
def IdCache.acquire_id (c : IdCache) : Nat × IdCache :=
  match c.try_acquire_id with
  | (some id, c') => (id, c')
  | (none, c') => (c'.top_id, { c' with top_id := c'.top_id + 1 })

/-- Embedding of `IdCache::release_id`: `assert!(id < self.top_id)` (a panic,
modelled as `none`) and then `self.free_ids.push(id)`. -/
def IdCache.release_id (c : IdCache) (id : Nat) : Option IdCache :=
  if id < c.top_id then some ⟨c.top_id, c.free_ids ++ [id]⟩ else none

/-- Embedding of `IdCache::release_ids`: extends `free_ids` with the batch,
asserting `id < top_id` for each consumed id (`top_id` is read before the
loop and does not change during it). -/
def IdCache.release_ids (c : IdCache) (ids : List Nat) : Option IdCache :=
  if ∀ id ∈ ids, id < c.top_id then some ⟨c.top_id, c.free_ids ++ ids⟩
  else none

/-- Embedding of `IdCache::reset`. -/
def IdCache.reset (_ : IdCache) : IdCache := ⟨0, []⟩

/-- Embedding of `IdCache::free_ids_num`. -/
def IdCache.free_ids_num (c : IdCache) : Nat := c.free_ids.length

/-- Running `acquire_id` a given number of times, collecting the returned ids
in order. -/
def acquireN : IdCache → Nat → List Nat × IdCache
  | c, 0 => ([], c)
  | c, n + 1 =>
    match c.acquire_id with
    | (id, c') =>
      match acquireN c' n with
      | (ids, c'') => (id :: ids, c'')

lemma try_acquire_id_concat (t : Nat) (l : List Nat) (id : Nat) :
    (IdCache.mk t (l ++ [id])).try_acquire_id = (some id, ⟨t, l⟩) := by
  simp [IdCache.try_acquire_id]

lemma acquire_id_concat (t : Nat) (l : List Nat) (id : Nat) :
    (IdCache.mk t (l ++ [id])).acquire_id = (id, ⟨t, l⟩) := by
  simp [IdCache.acquire_id, try_acquire_id_concat]

lemma acquire_id_nil (t : Nat) :
    (IdCache.mk t []).acquire_id = (t, ⟨t + 1, []⟩) := by
  simp [IdCache.acquire_id, IdCache.try_acquire_id]

lemma acquireN_range' (t : Nat) : ∀ (k s : Nat),
    acquireN ⟨t, (List.range' s k).reverse⟩ k = (List.range' s k, ⟨t, []⟩) := by
  intro k
  induction k with
  | zero => intro s; simp [acquireN]
  | succ k ih =>
    intro s
    have hsplit : (List.range' s (k + 1)).reverse
        = (List.range' (s + 1) k).reverse ++ [s] := by
      rw [List.range'_succ]
      simp
    rw [acquireN, hsplit, acquire_id_concat]
    dsimp only
    rw [ih (s + 1)]
    rw [List.range'_succ]

/-- C3: the allocator reuses ids in stack order: an acquire immediately after
a successful release returns the id released most recently (and restores the
prior allocator state); concretely, from `IdCache::new`, three acquires yield
`0, 1, 2`, then `release_id 2` and `release_id 1` leave the free pool as
`[2, 1]`, and the next acquire returns `1` leaving the pool `[2]`. -/
theorem stack_order_reuse :
    (∀ (c : IdCache) (id : Nat) (c' : IdCache),
        c.release_id id = some c' → c'.acquire_id = (id, c)) ∧
    acquireN IdCache.new 3 = ([0, 1, 2], ⟨3, []⟩) ∧
    (IdCache.mk 3 []).release_id 2 = some ⟨3, [2]⟩ ∧
    (IdCache.mk 3 [2]).release_id 1 = some ⟨3, [2, 1]⟩ ∧
    (IdCache.mk 3 [2, 1]).acquire_id = (1, ⟨3, [2]⟩) := by
  refine ⟨?_, by decide, by decide, by decide, by decide⟩
  intro c id c' hrel
  by_cases h : id < c.top_id
  · simp only [IdCache.release_id, if_pos h, Option.some.injEq] at hrel
    rw [← hrel, acquire_id_concat]
  · simp [IdCache.release_id, if_neg h] at hrel

/-- Witness for C3: instantiated at the allocator state `⟨3, []⟩` releasing
id `1`. -/
theorem stack_order_reuse_applied :
    (IdCache.mk 3 [1]).acquire_id = (1, IdCache.mk 3 []) :=
  stack_order_reuse.1 ⟨3, []⟩ 1 ⟨3, [1]⟩ (by decide)

/-- C5: `with_capacity n` sets the watermark to `n` and pre-seeds the free
pool with exactly the ids below `n`; the first `n` acquires then return
`0, 1, ..., n-1` in order (so exactly the set `{0, ..., n-1}`, each once),
and the acquire after that returns `n`. -/
theorem with_capacity_acquires (n : Nat) :
    (IdCache.with_capacity n).top_id = n ∧
    (∀ i, i ∈ (IdCache.with_capacity n).free_ids ↔ i < n) ∧
    (acquireN (IdCache.with_capacity n) n).1 = List.range n ∧
    ((acquireN (IdCache.with_capacity n) n).2.acquire_id).1 = n := by
  have hrun : acquireN (IdCache.with_capacity n) n = (List.range n, ⟨n, []⟩) := by
    simp only [IdCache.with_capacity, List.range_eq_range']
    exact acquireN_range' n n 0
  refine ⟨rfl, ?_, ?_, ?_⟩
  · intro i
    simp [IdCache.with_capacity]
  · rw [hrun]
  · rw [hrun, acquire_id_nil]

/-- C10: `release_id` panics exactly when `id ≥ top_id` and performs no
double-release detection: a successful release always appends `id` to the
free pool (even when already present), growing `free_ids_num` by one;
concretely, releasing id `0` twice after one acquire yields the pool
`[0, 0]` and the next two acquires both return `0`. -/
theorem release_no_double_free_check :
    (∀ (c : IdCache) (id : Nat), c.release_id id = none ↔ c.top_id ≤ id) ∧
    (∀ (c : IdCache) (id : Nat) (c' : IdCache), c.release_id id = some c' →
        c'.free_ids = c.free_ids ++ [id] ∧
        c'.free_ids_num = c.free_ids_num + 1) ∧
    IdCache.new.acquire_id = (0, ⟨1, []⟩) ∧
    (IdCache.mk 1 []).release_id 0 = some ⟨1, [0]⟩ ∧
    (IdCache.mk 1 [0]).release_id 0 = some ⟨1, [0, 0]⟩ ∧
    (IdCache.mk 1 [0, 0]).free_ids_num = 2 ∧
    (IdCache.mk 1 [0, 0]).acquire_id = (0, ⟨1, [0]⟩) ∧
    (IdCache.mk 1 [0]).acquire_id = (0, ⟨1, []⟩) := by
  refine ⟨?_, ?_, by decide, by decide, by decide, by decide, by decide, by decide⟩
  · intro c id
    by_cases h : id < c.top_id
    · simp [IdCache.release_id, if_pos h]
      omega
    · simp [IdCache.release_id, if_neg h]
      omega
  · intro c id c' hrel
    by_cases h : id < c.top_id
    · simp only [IdCache.release_id, if_pos h, Option.some.injEq] at hrel
      rw [← hrel]
      exact ⟨rfl, by simp [IdCache.free_ids_num]⟩
    · simp [IdCache.release_id, if_neg h] at hrel

/-- Witness for C10: instantiated at the double-release state `⟨1, [0]⟩`
releasing the already-free id `0`. -/
theorem release_no_double_free_check_applied :
    (IdCache.mk 1 [0, 0]).free_ids = [0] ++ [0] ∧
    (IdCache.mk 1 [0, 0]).free_ids_num = (IdCache.mk 1 [0]).free_ids_num + 1 :=
  release_no_double_free_check.2.1 ⟨1, [0]⟩ 0 ⟨1, [0, 0]⟩ (by decide)

/-- Embedding of `CacheStorage<T>` (src/cache_storage.rs): a backing vector
of values plus one id allocator. -/
structure CacheStorage (α : Type) where
  data : List α
  id_cache : IdCache

/-- Embedding of `CacheStorage::new`. -/
def CacheStorage.new {α : Type} : CacheStorage α := ⟨[], IdCache.new⟩

/-- Embedding of `CacheStorage::with_capacity`: the data vector is created
empty (capacity is only a memory reservation) while the allocator is
pre-seeded. -/
def CacheStorage.with_capacity {α : Type} (capacity : Nat) : CacheStorage α :=
  ⟨[], IdCache.with_capacity capacity⟩

/-- Embedding of `CacheStorage::insert_with_id`: append when `id == len`,
overwrite when `id < len`, and panic (`none`) otherwise. -/
def CacheStorage.insert_with_id {α : Type} (s : CacheStorage α) (id : Nat)
    (v : α) : Option (CacheStorage α) :=
  if id = s.data.length then some { s with data := s.data ++ [v] }
  else if id < s.data.length then some { s with data := s.data.set id v }
  else none

/-- Embedding of `CacheStorage::insert`: acquire an id from the allocator,
then `insert_with_id`. -/
def CacheStorage.insert {α : Type} (s : CacheStorage α) (v : α) :
    Option (Nat × CacheStorage α) :=
  match s.id_cache.acquire_id with
  | (id, c') =>
    (CacheStorage.insert_with_id { s with id_cache := c' } id v).map
      fun s' => (id, s')

/-- Embedding of `CacheStorage::try_insert`: acquire from the free pool only;
on success the result carries the id, and when the pool is empty the result
is `(none, storage unchanged)`. -/
def CacheStorage.try_insert {α : Type} (s : CacheStorage α) (v : α) :
    Option (Option Nat × CacheStorage α) :=
  match s.id_cache.try_acquire_id with
  | (some id, c') =>
    (CacheStorage.insert_with_id { s with id_cache := c' } id v).map
      fun s' => (some id, s')
  | (none, c') => some (none, { s with id_cache := c' })

/-- Embedding of `CacheStorage::remove`: release the id back to the
allocator; the data vector is untouched. -/
def CacheStorage.remove {α : Type} (s : CacheStorage α) (id : Nat) :
    Option (CacheStorage α) :=
  (s.id_cache.release_id id).map fun c' => { s with id_cache := c' }

/-- Embedding of `CacheStorage::remove_chunk`: batch release; the data vector
is untouched. -/
def CacheStorage.remove_chunk {α : Type} (s : CacheStorage α)
    (ids : List Nat) : Option (CacheStorage α) :=
  (s.id_cache.release_ids ids).map fun c' => { s with id_cache := c' }

/-- Embedding of `impl Extend for CacheStorage`: `for item in iter
{ self.insert(item); }`. -/
def CacheStorage.extend {α : Type} : CacheStorage α → List α →
    Option (CacheStorage α)
  | s, [] => some s
  | s, v :: vs => (s.insert v).bind fun p => p.2.extend vs

/-- The allocator-mediated operations of the dense storage (the public API
that goes through the id allocator; `insert_with_id` bypasses it). -/
inductive CacheOp (α : Type) where
  | insertOp (v : α)
  | tryInsertOp (v : α)
  | removeOp (id : Nat)
  | removeChunkOp (ids : List Nat)
  | extendOp (items : List α)

/-- One storage operation, `none` when the underlying call panics. -/
def CacheStorage.applyOp {α : Type} (s : CacheStorage α) :
    CacheOp α → Option (CacheStorage α)
  | .insertOp v => (s.insert v).map Prod.snd
  | .tryInsertOp v => (s.try_insert v).map Prod.snd
  | .removeOp id => s.remove id
  | .removeChunkOp ids => s.remove_chunk ids
  | .extendOp items => s.extend items

/-- Running a sequence of storage operations. -/
def CacheStorage.runOps {α : Type} : CacheStorage α → List (CacheOp α) →
    Option (CacheStorage α)
  | s, [] => some s
  | s, op :: ops => (s.applyOp op).bind fun s' => s'.runOps ops

/-- The dense-storage invariant from the spec's data model: the backing
vector's length equals the allocator watermark, and every pooled free id is
below the watermark. -/
def denseInv {α : Type} (S : CacheStorage α) : Prop :=
  S.data.length = S.id_cache.top_id ∧
  ∀ i ∈ S.id_cache.free_ids, i < S.id_cache.top_id

lemma denseInv_insert {α : Type} {S : CacheStorage α} (h : denseInv S)
    (v : α) : ∃ id S', S.insert v = some (id, S') ∧ denseInv S' := by
  obtain ⟨data, t, free⟩ := S
  obtain ⟨hlen, hfree⟩ := h
  simp only at hlen hfree
  rcases List.eq_nil_or_concat free with hnil | ⟨l, id, hconcat⟩
  · subst hnil
    refine ⟨t, ⟨data ++ [v], ⟨t + 1, []⟩⟩, ?_, ?_⟩
    · simp only [CacheStorage.insert, acquire_id_nil,
        CacheStorage.insert_with_id, hlen]
      simp
    · constructor
      · simp [hlen]
      · simp
  · subst hconcat
    simp only [List.concat_eq_append] at hfree ⊢
    have hid : id < t := hfree id (by simp)
    refine ⟨id, ⟨data.set id v, ⟨t, l⟩⟩, ?_, ?_⟩
    · simp only [CacheStorage.insert, acquire_id_concat,
        CacheStorage.insert_with_id]
      rw [if_neg (by omega), if_pos (by omega)]
      simp
    · constructor
      · simp [hlen]
      · intro i hi
        exact hfree i (by simp [hi])

lemma denseInv_try_insert {α : Type} {S : CacheStorage α} (h : denseInv S)
    (v : α) : ∃ r S', S.try_insert v = some (r, S') ∧ denseInv S' := by
  obtain ⟨data, t, free⟩ := S
  obtain ⟨hlen, hfree⟩ := h
  simp only at hlen hfree
  rcases List.eq_nil_or_concat free with hnil | ⟨l, id, hconcat⟩
  · subst hnil
    refine ⟨none, ⟨data, ⟨t, []⟩⟩, ?_, hlen, by simp⟩
    simp [CacheStorage.try_insert, IdCache.try_acquire_id]
  · subst hconcat
    simp only [List.concat_eq_append] at hfree ⊢
    have hid : id < t := hfree id (by simp)
    refine ⟨some id, ⟨data.set id v, ⟨t, l⟩⟩, ?_, ?_⟩
    · simp only [CacheStorage.try_insert, try_acquire_id_concat,
        CacheStorage.insert_with_id]
      rw [if_neg (by omega), if_pos (by omega)]
      simp
    · constructor
      · simp [hlen]
      · intro i hi
        exact hfree i (by simp [hi])

lemma denseInv_remove {α : Type} {S S' : CacheStorage α} (h : denseInv S)
    {id : Nat} (hrem : S.remove id = some S') : denseInv S' := by
  obtain ⟨data, t, free⟩ := S
  obtain ⟨hlen, hfree⟩ := h
  simp only at hlen hfree
  by_cases hid : id < t
  · simp only [CacheStorage.remove, IdCache.release_id, if_pos hid,
      Option.map_some', Option.some.injEq] at hrem
    rw [← hrem]
    refine ⟨hlen, ?_⟩
    intro i hi
    simp only [List.mem_append, List.mem_singleton] at hi
    rcases hi with hi | hi
    · exact hfree i hi
    · subst hi
      exact hid
  · simp [CacheStorage.remove, IdCache.release_id, if_neg hid] at hrem

lemma denseInv_remove_chunk {α : Type} {S S' : CacheStorage α}
    (h : denseInv S) {ids : List Nat}
    (hrem : S.remove_chunk ids = some S') : denseInv S' := by
  obtain ⟨data, t, free⟩ := S
  obtain ⟨hlen, hfree⟩ := h
  simp only at hlen hfree
  by_cases hids : ∀ id ∈ ids, id < t
  · simp only [CacheStorage.remove_chunk, IdCache.release_ids, if_pos hids,
      Option.map_some', Option.some.injEq] at hrem
    rw [← hrem]
    refine ⟨hlen, ?_⟩
    intro i hi
    simp only [List.mem_append] at hi
    rcases hi with hi | hi
    · exact hfree i hi
    · exact hids i hi
  · simp [CacheStorage.remove_chunk, IdCache.release_ids, if_neg hids] at hrem

lemma denseInv_extend {α : Type} :
    ∀ (items : List α) (S S' : CacheStorage α), denseInv S →
      S.extend items = some S' → denseInv S' := by
  intro items
  induction items with
  | nil =>
    intro S S' h hext
    simp only [CacheStorage.extend, Option.some.injEq] at hext
    rw [← hext]; exact h
  | cons v vs ih =>
    intro S S' h hext
    obtain ⟨id, S₁, hins, hinv₁⟩ := denseInv_insert h v
    rw [CacheStorage.extend, hins, Option.some_bind] at hext
    exact ih S₁ S' hinv₁ hext

lemma denseInv_applyOp {α : Type} {S S' : CacheStorage α} (h : denseInv S)
    {op : CacheOp α} (happ : S.applyOp op = some S') : denseInv S' := by
  cases op with
  | insertOp v =>
    obtain ⟨id, S₁, hins, hinv⟩ := denseInv_insert h v
    simp only [CacheStorage.applyOp, hins, Option.map_some',
      Option.some.injEq] at happ
    rw [← happ]; exact hinv
  | tryInsertOp v =>
    obtain ⟨r, S₁, hins, hinv⟩ := denseInv_try_insert h v
    simp only [CacheStorage.applyOp, hins, Option.map_some',
      Option.some.injEq] at happ
    rw [← happ]; exact hinv
  | removeOp id => exact denseInv_remove h happ
  | removeChunkOp ids => exact denseInv_remove_chunk h happ
  | extendOp items => exact denseInv_extend items S S' h happ

lemma denseInv_runOps {α : Type} :
    ∀ (ops : List (CacheOp α)) (S S' : CacheStorage α), denseInv S →
      S.runOps ops = some S' → denseInv S' := by
  intro ops
  induction ops with
  | nil =>
    intro S S' h hrun
    simp only [CacheStorage.runOps, Option.some.injEq] at hrun
    rw [← hrun]; exact h
  | cons op ops ih =>
    intro S S' h hrun
    rw [CacheStorage.runOps] at hrun
    cases happ : S.applyOp op with
    | none => rw [happ] at hrun; simp at hrun
    | some S₁ =>
      rw [happ, Option.some_bind] at hrun
      exact ih S₁ S' (denseInv_applyOp h happ) hrun

lemma denseInv_new {α : Type} : denseInv (CacheStorage.new : CacheStorage α) :=
  ⟨rfl, by simp [CacheStorage.new, IdCache.new]⟩

/-- Counterexample for C2: `with_capacity` pre-seeds the allocator, so right
after that constructor the backing vector is empty while the watermark is
already the capacity, refuting `data.len() == next_fresh` "after construction
by any constructor". -/
theorem with_capacity_breaks_len_eq_top :
    ¬ ((CacheStorage.with_capacity 1 : CacheStorage Nat).data.length =
        (CacheStorage.with_capacity 1 : CacheStorage Nat).id_cache.top_id) := by
  decide

/-- C2 (amended): for a dense storage constructed with `new`, every
successful sequence of allocator-mediated operations (insert, try_insert,
remove, remove_chunk, extend) preserves `data.len() = top_id`; `remove`
never touches the data vector (it only returns the id to the free pool);
`with_capacity n` instead starts with an empty data vector and watermark
`n`. -/
theorem len_eq_top_invariant :
    (∀ (α : Type) (ops : List (CacheOp α)) (S' : CacheStorage α),
        CacheStorage.runOps CacheStorage.new ops = some S' →
        S'.data.length = S'.id_cache.top_id) ∧
    (∀ (α : Type) (S : CacheStorage α) (id : Nat) (S' : CacheStorage α),
        S.remove id = some S' → S'.data = S.data) ∧
    (∀ (α : Type) (n : Nat),
        (CacheStorage.with_capacity n : CacheStorage α).data.length = 0 ∧
        (CacheStorage.with_capacity n : CacheStorage α).id_cache.top_id = n) := by
  refine ⟨?_, ?_, ?_⟩
  · intro α ops S' hrun
    exact (denseInv_runOps ops CacheStorage.new S' denseInv_new hrun).1
  · intro α S id S' hrem
    cases hrel : S.id_cache.release_id id with
    | none => simp [CacheStorage.remove, hrel] at hrem
    | some c' =>
      simp only [CacheStorage.remove, hrel, Option.map_some',
        Option.some.injEq] at hrem
      rw [← hrem]
  · intro α n
    exact ⟨rfl, rfl⟩

/-- Witness for C2 (amended): the invariant applied to the concrete run
`new → insert 5 → remove 0`. -/
theorem len_eq_top_invariant_applied :
    (CacheStorage.mk [5] ⟨1, [0]⟩ : CacheStorage Nat).data.length =
      (CacheStorage.mk [5] ⟨1, [0]⟩ : CacheStorage Nat).id_cache.top_id :=
  len_eq_top_invariant.1 Nat [CacheOp.insertOp 5, CacheOp.removeOp 0]
    ⟨[5], ⟨1, [0]⟩⟩ rfl

/-- The reachable-state invariant justifying that `insert` never hits the
panic branch of `insert_with_id`: the free pool consists of the not yet
consumed pre-seeded ids `len, len+1, ..., top_id - 1` (in reverse, so the
smallest is popped first) below released ids that are all within the data
vector. -/
def reuseInv {α : Type} (S : CacheStorage α) : Prop :=
  S.data.length ≤ S.id_cache.top_id ∧
  ∃ rest,
    S.id_cache.free_ids =
      (List.range' S.data.length
        (S.id_cache.top_id - S.data.length)).reverse ++ rest ∧
    ∀ i ∈ rest, i < S.data.length

lemma reuseInv_insert {α : Type} {S : CacheStorage α} (h : reuseInv S)
    (v : α) : ∃ id S', S.insert v = some (id, S') ∧ reuseInv S' := by
  obtain ⟨data, t, free⟩ := S
  obtain ⟨hle, rest, hfree, hrest⟩ := h
  simp only at hle hfree hrest
  rcases List.eq_nil_or_concat rest with hnil | ⟨l, id, hconcat⟩
  · subst hnil
    rw [List.append_nil] at hfree
    rcases Nat.eq_zero_or_pos (t - data.length) with hz | hpos
    · have ht : t = data.length := by omega
      subst hfree
      rw [hz] at *
      refine ⟨t, ⟨data ++ [v], ⟨t + 1, []⟩⟩, ?_, ?_⟩
      · simp only [CacheStorage.insert, List.range'_zero, List.reverse_nil,
          acquire_id_nil, CacheStorage.insert_with_id]
        rw [if_pos (by omega)]
        simp
      · refine ⟨by simp; omega, [], ?_, by simp⟩
        simp
        omega
    · obtain ⟨k, hk⟩ : ∃ k, t - data.length = k + 1 :=
        ⟨t - data.length - 1, by omega⟩
      have hsplit : (List.range' data.length (t - data.length)).reverse
          = (List.range' (data.length + 1) k).reverse ++ [data.length] := by
        rw [hk, List.range'_succ]
        simp
      subst hfree
      refine ⟨data.length, ⟨data ++ [v], ⟨t, (List.range' (data.length + 1) k).reverse⟩⟩, ?_, ?_⟩
      · rw [hsplit]
        simp only [CacheStorage.insert, acquire_id_concat,
          CacheStorage.insert_with_id]
        simp
      · refine ⟨by simp; omega, [], ?_, by simp⟩
        simp only [List.append_nil, List.length_append, List.length_singleton]
        have : t - (data.length + 1) = k := by omega
        rw [this]
  · subst hconcat
    simp only [List.concat_eq_append] at hrest hfree
    rw [← List.append_assoc] at hfree
    have hid : id < data.length := hrest id (by simp)
    subst hfree
    refine ⟨id, ⟨data.set id v,
      ⟨t, (List.range' data.length (t - data.length)).reverse ++ l⟩⟩, ?_, ?_⟩
    · simp only [CacheStorage.insert, acquire_id_concat,
        CacheStorage.insert_with_id]
      rw [if_neg (by omega), if_pos (by omega)]
      simp
    · refine ⟨by simp; omega, l, by simp, ?_⟩
      intro i hi
      simp only [List.length_set]
      exact hrest i (by simp [hi])

lemma reuseInv_new {α : Type} : reuseInv (CacheStorage.new : CacheStorage α) :=
  ⟨Nat.le_refl 0, [], rfl, by simp⟩

lemma reuseInv_with_capacity {α : Type} (n : Nat) :
    reuseInv (CacheStorage.with_capacity n : CacheStorage α) := by
  refine ⟨Nat.zero_le n, [], ?_, by simp⟩
  simp [CacheStorage.with_capacity, IdCache.with_capacity,
    List.range_eq_range']

lemma reuseInv_remove {α : Type} {S S' : CacheStorage α} (h : reuseInv S)
    {id : Nat} (hid : id < S.data.length) (hrem : S.remove id = some S') :
    reuseInv S' := by
  obtain ⟨data, t, free⟩ := S
  obtain ⟨hle, rest, hfree, hrest⟩ := h
  simp only at hle hfree hrest hid
  have hlt : id < t := by omega
  simp only [CacheStorage.remove, IdCache.release_id, if_pos hlt,
    Option.map_some', Option.some.injEq] at hrem
  rw [← hrem]
  refine ⟨hle, rest ++ [id], ?_, ?_⟩
  · simp [hfree]
  · intro i hi
    simp only [List.mem_append, List.mem_singleton] at hi
    rcases hi with hi | hi
    · exact hrest i hi
    · subst hi
      exact hid

/-- C6: `insert_with_id id v` appends when `id` equals the data length,
overwrites the slot when `id` is below it, and panics (returning no state at
all, so modifying nothing) when `id` exceeds it; under allocator-mediated
use the panic branch is unreachable: every state reachable through
`new`/`with_capacity`, `insert` and in-range `remove` satisfies `reuseInv`,
and from any `reuseInv` state `insert` succeeds. -/
theorem insert_with_id_cases :
    (∀ (α : Type) (S : CacheStorage α) (id : Nat) (v : α),
        (id = S.data.length →
          S.insert_with_id id v = some { S with data := S.data ++ [v] }) ∧
        (id < S.data.length →
          S.insert_with_id id v = some { S with data := S.data.set id v }) ∧
        (S.data.length < id → S.insert_with_id id v = none)) ∧
    (∀ (α : Type) (S : CacheStorage α) (v : α), reuseInv S →
        ∃ id S', S.insert v = some (id, S') ∧ reuseInv S') ∧
    (∀ (α : Type), reuseInv (CacheStorage.new : CacheStorage α)) ∧
    (∀ (α : Type) (n : Nat),
        reuseInv (CacheStorage.with_capacity n : CacheStorage α)) ∧
    (∀ (α : Type) (S : CacheStorage α) (id : Nat) (S' : CacheStorage α),
        reuseInv S → id < S.data.length → S.remove id = some S' →
        reuseInv S') := by
  refine ⟨?_, ?_, ?_, ?_, ?_⟩
  · intro α S id v
    refine ⟨?_, ?_, ?_⟩
    · intro h
      simp [CacheStorage.insert_with_id, h]
    · intro h
      simp only [CacheStorage.insert_with_id]
      rw [if_neg (by omega), if_pos h]
    · intro h
      simp only [CacheStorage.insert_with_id]
      rw [if_neg (by omega), if_neg (by omega)]
  · intro α S v h
    exact reuseInv_insert h v
  · intro α
    exact reuseInv_new
  · intro α n
    exact reuseInv_with_capacity n
  · intro α S id S' h hid hrem
    exact reuseInv_remove h hid hrem

/-- Witness for C6: the overwrite case at the one-slot storage `⟨[10], ⟨1, []⟩⟩`
with id `0`, and the insert-success case at `CacheStorage.new`. -/
theorem insert_with_id_cases_applied :
    (CacheStorage.mk [10] ⟨1, []⟩ : CacheStorage Nat).insert_with_id 0 99 =
      some ⟨[10].set 0 99, ⟨1, []⟩⟩ ∧
    ∃ id S', (CacheStorage.new : CacheStorage Nat).insert 7 = some (id, S') ∧
      reuseInv S' :=
  ⟨(insert_with_id_cases.1 Nat ⟨[10], ⟨1, []⟩⟩ 0 99).2.1 (by decide),
   insert_with_id_cases.2.1 Nat CacheStorage.new 7 (insert_with_id_cases.2.2.1 Nat)⟩

/-- C7: `try_acquire_id` returns `none` exactly when the free pool is empty
(leaving the allocator unchanged), otherwise it returns an id drawn from the
pool; in both cases the watermark `top_id` is untouched; correspondingly
`try_insert` returns `(none, unchanged storage)` exactly when no free id
exists. -/
theorem try_acquire_try_insert :
    (∀ c : IdCache,
        (c.try_acquire_id.1 = none ↔ c.free_ids = []) ∧
        c.try_acquire_id.2.top_id = c.top_id ∧
        (c.free_ids = [] → c.try_acquire_id.2 = c)) ∧
    (∀ (c : IdCache) (id : Nat) (c' : IdCache),
        c.try_acquire_id = (some id, c') → id ∈ c.free_ids) ∧
    (∀ (α : Type) (S : CacheStorage α) (v : α),
        S.try_insert v = some (none, S) ↔ S.id_cache.free_ids = []) := by
  refine ⟨?_, ?_, ?_⟩
  · intro c
    obtain ⟨t, free⟩ := c
    rcases List.eq_nil_or_concat free with hnil | ⟨l, id, hconcat⟩
    · subst hnil
      refine ⟨by simp [IdCache.try_acquire_id], rfl, fun _ => rfl⟩
    · subst hconcat
      simp only [List.concat_eq_append]
      rw [try_acquire_id_concat]
      simp
  · intro c id c' h
    obtain ⟨t, free⟩ := c
    rcases List.eq_nil_or_concat free with hnil | ⟨l, a, hconcat⟩
    · subst hnil
      simp [IdCache.try_acquire_id] at h
    · subst hconcat
      simp only [List.concat_eq_append] at h ⊢
      rw [try_acquire_id_concat] at h
      simp only [Prod.mk.injEq, Option.some.injEq] at h
      simp [h.1]
  · intro α S v
    obtain ⟨data, t, free⟩ := S
    rcases List.eq_nil_or_concat free with hnil | ⟨l, id, hconcat⟩
    · subst hnil
      simp [CacheStorage.try_insert, IdCache.try_acquire_id]
    · subst hconcat
      simp only [List.concat_eq_append]
      constructor
      · intro h
        rw [CacheStorage.try_insert, try_acquire_id_concat] at h
        dsimp only at h
        cases hins : CacheStorage.insert_with_id
            ⟨data, ⟨t, l⟩⟩ id v with
        | none => rw [hins] at h; simp at h
        | some s' => rw [hins] at h; simp at h
      · intro h
        simp at h

/-- Witness for C7: the pool-membership part applied at `⟨3, [5]⟩` and the
empty-pool `try_insert` part applied at `CacheStorage.new`. -/
theorem try_acquire_try_insert_applied :
    5 ∈ (IdCache.mk 3 [5]).free_ids ∧
    (CacheStorage.new : CacheStorage Nat).try_insert 1 =
      some (none, CacheStorage.new) :=
  ⟨try_acquire_try_insert.2.1 ⟨3, [5]⟩ 5 ⟨3, []⟩ rfl,
   (try_acquire_try_insert.2.2 Nat CacheStorage.new 1).mpr rfl⟩

/-- Ordered insertion into a strictly ascending list of naturals: the model
of `BTreeSet::insert` (duplicates are dropped, order is maintained). -/
def btreeInsert (id : Nat) : List Nat → List Nat
  | [] => [id]
  | x :: xs =>
    if id < x then id :: x :: xs
    else if id = x then x :: xs
    else x :: btreeInsert id xs

/-- Embedding of `ShrinkableStorage<T>` (src/shrinkable_storage.rs): a
backing vector plus the set of ids marked free, represented as the strictly
ascending list a `BTreeSet<Id>` iterates in. -/
structure ShrinkableStorage (α : Type) where
  data : List α
  free_ids : List Nat
  deriving Repr, DecidableEq

/-- Embedding of `ShrinkableStorage::new`. -/
def ShrinkableStorage.new {α : Type} : ShrinkableStorage α := ⟨[], []⟩

/-- Embedding of `ShrinkableStorage::with_capacity` (capacity is only a
memory reservation). -/
def ShrinkableStorage.with_capacity {α : Type} (_ : Nat) :
    ShrinkableStorage α := ⟨[], []⟩

/-- Embedding of `ShrinkableStorage::volume`. -/
def ShrinkableStorage.volume {α : Type} (s : ShrinkableStorage α) : Nat :=
  s.data.length

/-- Embedding of `ShrinkableStorage::insert`: always appends; the id is the
old tail index. -/
def ShrinkableStorage.insert {α : Type} (s : ShrinkableStorage α) (v : α) :
    Nat × ShrinkableStorage α :=
  (s.data.length, { s with data := s.data ++ [v] })

/-- Embedding of `ShrinkableStorage::free_id`: `debug_assert!(id <
self.data.len())` (modelled as a checked panic, `none`) then insertion into
the free set. -/
def ShrinkableStorage.free_id {α : Type} (s : ShrinkableStorage α)
    (id : Nat) : Option (ShrinkableStorage α) :=
  if id < s.data.length then
    some { s with free_ids := btreeInsert id s.free_ids }
  else none

/-- Embedding of `ShrinkableStorage::free_ids` (the batch method; renamed
because the struct field already carries the source name): extends the free
set, debug-asserting `id < self.data.len()` for every consumed id. -/
def ShrinkableStorage.free_ids_batch {α : Type} (s : ShrinkableStorage α)
    (ids : List Nat) : Option (ShrinkableStorage α) :=
  if ∀ id ∈ ids, id < s.data.length then
    some { s with free_ids := ids.foldl (fun acc i => btreeInsert i acc) s.free_ids }
  else none

/-- Embedding of `ShrinkableStorage::is_id_free`. -/
def ShrinkableStorage.is_id_free {α : Type} (s : ShrinkableStorage α)
    (id : Nat) : Bool :=
  s.free_ids.contains id

/-- Embedding of `ShrinkableStorage::restore_freed`. -/
def ShrinkableStorage.restore_freed {α : Type} (s : ShrinkableStorage α) :
    ShrinkableStorage α :=
  { s with free_ids := [] }

/-- Embedding of `ShrinkableStorage::iter_ids`: the id range `0..len`. -/
def ShrinkableStorage.iter_ids {α : Type} (s : ShrinkableStorage α) :
    List Nat :=
  List.range s.data.length

/-- Embedding of `impl Extend for ShrinkableStorage`:
`self.data.extend(iter)` appends all items to the data vector. -/
def ShrinkableStorage.extend {α : Type} (s : ShrinkableStorage α)
    (items : List α) : ShrinkableStorage α :=
  { s with data := s.data ++ items }

/-- Embedding of `Vec::swap_remove`: overwrite position `i` with the last
element and pop; panics (`none`) when `i` is out of bounds. -/
def swapRemove {α : Type} (l : List α) (i : Nat) : Option (List α) :=
  if h : i < l.length then
    some ((l.set i (l.get ⟨l.length - 1, by omega⟩)).dropLast)
  else none

/-- Sequentially `swap_remove` each index of the list (the order in which
`shrink` processes the free set). -/
def swapRemoveAll {α : Type} : List α → List Nat → Option (List α)
  | l, [] => some l
  | l, i :: is => (swapRemove l i).bind fun l' => swapRemoveAll l' is

/-- Embedding of `ShrinkableStorage::shrink`: clone, walk the free set from
the highest id down doing `swap_remove`, then clear the free set of the
clone. -/
def ShrinkableStorage.shrink {α : Type} (s : ShrinkableStorage α) :
    Option (ShrinkableStorage α) :=
  (swapRemoveAll s.data s.free_ids.reverse).map fun d => ⟨d, []⟩

/-- The `shrink` method call as seen by the caller: `shrink` takes `&self`
(it only clones the receiver), so the pair records the returned storage
together with the receiver after the call. -/
def ShrinkableStorage.shrink_method {α : Type} (s : ShrinkableStorage α) :
    Option (ShrinkableStorage α) × ShrinkableStorage α :=
  (s.shrink, s)

lemma mem_btreeInsert {id a : Nat} :
    ∀ {l : List Nat}, a ∈ btreeInsert id l ↔ a = id ∨ a ∈ l := by
  intro l
  induction l with
  | nil => simp [btreeInsert]
  | cons x xs ih =>
    by_cases h1 : id < x
    · simp [btreeInsert, if_pos h1]
    · by_cases h2 : id = x
      · subst h2
        simp [btreeInsert, if_neg h1]
      · simp only [btreeInsert, if_neg h1, if_neg h2, List.mem_cons, ih]
        tauto

/-- C4: `free_id` (the spec's `mark_free`) panics exactly when
`id ≥ data.len()`; with `id < len` it succeeds, adding `id` to the free set
and leaving the data untouched; the batch `free_ids` (the spec's
`mark_free_many`) panics exactly when some id of the batch is at or beyond
the allocated range. -/
theorem mark_free_bounds :
    (∀ (α : Type) (s : ShrinkableStorage α) (id : Nat),
        (s.free_id id = none ↔ s.volume ≤ id) ∧
        (id < s.volume →
          s.free_id id = some { s with free_ids := btreeInsert id s.free_ids } ∧
          id ∈ (btreeInsert id s.free_ids) ∧
          ({ s with free_ids := btreeInsert id s.free_ids } :
            ShrinkableStorage α).data = s.data)) ∧
    (∀ (α : Type) (s : ShrinkableStorage α) (ids : List Nat),
        s.free_ids_batch ids = none ↔ ∃ id ∈ ids, s.volume ≤ id) := by
  constructor
  · intro α s id
    constructor
    · by_cases h : id < s.data.length
      · simp [ShrinkableStorage.free_id, if_pos h, ShrinkableStorage.volume]
        omega
      · simp [ShrinkableStorage.free_id, if_neg h, ShrinkableStorage.volume]
        omega
    · intro h
      refine ⟨?_, ?_, rfl⟩
      · rw [ShrinkableStorage.free_id]
        exact if_pos h
      · rw [mem_btreeInsert]
        left
        rfl
  · intro α s ids
    by_cases h : ∀ id ∈ ids, id < s.data.length
    · simp only [ShrinkableStorage.free_ids_batch, if_pos h]
      simp only [ShrinkableStorage.volume]
      constructor
      · intro hc
        exact absurd hc (by simp)
      · intro ⟨id, hmem, hge⟩
        exact absurd (h id hmem) (by omega)
    · simp only [ShrinkableStorage.free_ids_batch, if_neg h]
      simp only [ShrinkableStorage.volume]
      constructor
      · intro _
        push_neg at h
        obtain ⟨id, hmem, hge⟩ := h
        exact ⟨id, hmem, by omega⟩
      · intro _
        trivial

/-- Witness for C4: marking id `0` free in a two-element storage. -/
theorem mark_free_bounds_applied :
    (ShrinkableStorage.mk [10, 20] [] : ShrinkableStorage Nat).free_id 0 =
      some ⟨[10, 20], btreeInsert 0 []⟩ :=
  ((mark_free_bounds.1 Nat ⟨[10, 20], []⟩ 0).2 (by decide)).1

/-- C8: compaction does not modify the source storage: `shrink` borrows the
receiver immutably (it only clones it), so after the call the receiver's
data, volume, free-id set and free-id count are exactly what they were
before. -/
theorem shrink_preserves_source :
    ∀ (α : Type) (s : ShrinkableStorage α),
      s.shrink_method.2.data = s.data ∧
      s.shrink_method.2.volume = s.volume ∧
      s.shrink_method.2.free_ids = s.free_ids ∧
      s.shrink_method.2.free_ids.length = s.free_ids.length :=
  fun _ _ => ⟨rfl, rfl, rfl, rfl⟩

/-- Repeated single `insert` calls in iteration order on the dense storage,
modelled from the spec's words for the extend-equivalence claim ("Extend is
equivalent to repeated single inserts in iteration order"). -/
def insert_each_cache {α : Type} : CacheStorage α → List α →
    Option (CacheStorage α)
  | s, [] => some s
  | s, v :: vs => (s.insert v).bind fun p => insert_each_cache p.2 vs

/-- Repeated single `insert` calls in iteration order on the compacting
storage, modelled from the spec's words; also returns the assigned ids. -/
def insert_each_shrinkable {α : Type} : ShrinkableStorage α → List α →
    List Nat × ShrinkableStorage α
  | s, [] => ([], s)
  | s, v :: vs =>
    match s.insert v with
    | (id, s') =>
      match insert_each_shrinkable s' vs with
      | (ids, s'') => (id :: ids, s'')

/-- C9: bulk extend coincides with repeated single inserts in iteration
order, for both storages; for the compacting storage the assigned ids are
the fresh tail indices `volume, volume+1, ...` in order (for the dense
storage the two are the very same allocator-driven loop, so the assigned
ids coincide as well). -/
theorem extend_refines_inserts :
    (∀ (α : Type) (s : CacheStorage α) (items : List α),
        s.extend items = insert_each_cache s items) ∧
    (∀ (α : Type) (s : ShrinkableStorage α) (items : List α),
        s.extend items = (insert_each_shrinkable s items).2 ∧
        (insert_each_shrinkable s items).1 =
          List.range' s.volume items.length) := by
  constructor
  · intro α s items
    induction items generalizing s with
    | nil => rfl
    | cons v vs ih =>
      rw [CacheStorage.extend, insert_each_cache]
      cases s.insert v with
      | none => rfl
      | some p => simp only [Option.some_bind]; exact ih p.2
  · intro α s items
    induction items generalizing s with
    | nil =>
      exact ⟨by simp [ShrinkableStorage.extend, insert_each_shrinkable], rfl⟩
    | cons v vs ih =>
      obtain ⟨ih1, ih2⟩ := ih (s.insert v).2
      constructor
      · rw [insert_each_shrinkable]
        show s.extend (v :: vs) = (insert_each_shrinkable (s.insert v).2 vs).2
        rw [← ih1]
        simp [ShrinkableStorage.extend, ShrinkableStorage.insert]
      · rw [insert_each_shrinkable]
        show (s.insert v).1 :: (insert_each_shrinkable (s.insert v).2 vs).1 =
          List.range' s.volume (vs.length + 1)
        rw [ih2, List.range'_succ]
        simp [ShrinkableStorage.insert, ShrinkableStorage.volume,
          ShrinkableStorage.extend]

lemma coe_append_cons {α : Type} (x : α) (u w : List α) :
    (↑(u ++ x :: w) : Multiset α) = ↑u + ({x} + ↑w) := by
  rw [Multiset.singleton_add, Multiset.cons_coe, ← Multiset.coe_add]

lemma multiset_set_elem {α : Type} (l : List α) (d : α) {i : Nat}
    (h : i < l.length) (a : α) :
    (↑(l.set i a) + {l.getD i d} : Multiset α) = ↑l + {a} := by
  rw [List.getD_eq_getElem l d h]
  have hset : l.set i a = l.take i ++ a :: l.drop (i + 1) := by
    rw [List.set_eq_take_append_cons_drop, if_pos h]
  have hdec : l = l.take i ++ l[i] :: l.drop (i + 1) := by
    conv_lhs => rw [← List.take_append_drop i l]
    rw [List.drop_eq_getElem_cons h]
  rw [hset]
  conv_rhs => rw [hdec]
  rw [coe_append_cons, coe_append_cons]
  abel

lemma swapRemove_some {α : Type} {l : List α} {i : Nat} (h : i < l.length) :
    swapRemove l i =
      some ((l.set i (l.get ⟨l.length - 1, by omega⟩)).dropLast) := by
  rw [swapRemove, dif_pos h]

lemma swapRemove_multiset {α : Type} (l : List α) (d : α) {i : Nat}
    (h : i < l.length) :
    ∃ l', swapRemove l i = some l' ∧
      (↑l' + {l.getD i d} : Multiset α) = ↑l ∧
      l'.length = l.length - 1 ∧
      (∀ j, j < i → l'.getD j d = l.getD j d) := by
  have hpos : 0 < l.length := by omega
  have hlast : l.length - 1 < l.length := by omega
  set a := l.get ⟨l.length - 1, hlast⟩ with ha
  set m := l.set i a with hm
  have hmlen : m.length = l.length := by rw [hm, List.length_set]
  have hmne : m ≠ [] := by
    apply List.ne_nil_of_length_pos
    omega
  refine ⟨m.dropLast, ?_, ?_, ?_, ?_⟩
  · rw [swapRemove_some h]
  · have hgl : m.getLast hmne = a := by
      rw [List.getLast_eq_getElem]
      rw [← List.getD_eq_getElem m d (by omega)]
      rw [hmlen]
      by_cases hcase : i = l.length - 1
      · rw [hm, ← hcase]
        rw [List.getD_eq_getElem _ d (by rw [List.length_set]; omega)]
        exact List.getElem_set_self _
      · rw [hm]
        rw [List.getD_eq_getElem _ d (by rw [List.length_set]; omega)]
        rw [List.getElem_set_ne hcase (by rw [List.length_set]; omega)]
        rw [ha, List.get_eq_getElem]
    have hsplit : m.dropLast ++ [a] = m := by
      conv_rhs => rw [← List.dropLast_append_getLast hmne]
      rw [hgl]
    have hcoe : (↑m.dropLast + {a} : Multiset α) = ↑m := by
      rw [← Multiset.coe_singleton, Multiset.coe_add, hsplit]
    have hms : (↑m + {l.getD i d} : Multiset α) = ↑l + {a} :=
      multiset_set_elem l d h a
    have hstep : (↑m.dropLast + {a}) + {l.getD i d} = (↑l : Multiset α) + {a} := by
      rw [hcoe]
      exact hms
    have hgoal : (↑m.dropLast + {l.getD i d}) + {a} = (↑l : Multiset α) + {a} := by
      rw [← hstep]
      abel
    exact add_right_cancel hgoal
  · rw [List.length_dropLast, hmlen]
  · intro j hj
    have hj1 : j < m.dropLast.length := by
      rw [List.length_dropLast, hmlen]
      omega
    have hj2 : j < l.length := by omega
    rw [List.getD_eq_getElem _ d hj1, List.getD_eq_getElem l d hj2]
    rw [List.getElem_dropLast]
    exact List.getElem_set_ne (by omega) (by rw [List.length_set]; exact hj2)

lemma swapRemoveAll_spec {α : Type} (d : α) :
    ∀ (ids : List Nat) (l : List α), ids.Pairwise (· > ·) →
      (∀ i ∈ ids, i < l.length) →
      ∃ l', swapRemoveAll l ids = some l' ∧
        (↑l' + ↑(ids.map fun i => l.getD i d) : Multiset α) = ↑l ∧
        l'.length = l.length - ids.length := by
  intro ids
  induction ids with
  | nil =>
    intro l _ _
    exact ⟨l, rfl, by simp, by simp⟩
  | cons i is ih =>
    intro l hpair hbound
    have hi : i < l.length := hbound i (by simp)
    obtain ⟨l₁, hsw, hmul₁, hlen₁, hpres⟩ := swapRemove_multiset l d hi
    have hgt : ∀ j ∈ is, j < i := (List.pairwise_cons.mp hpair).1
    have hb₁ : ∀ j ∈ is, j < l₁.length := by
      intro j hj
      have := hgt j hj
      rw [hlen₁]
      omega
    obtain ⟨l₂, hrun, hmul₂, hlen₂⟩ :=
      ih l₁ (List.pairwise_cons.mp hpair).2 hb₁
    have hmap : is.map (fun j => l₁.getD j d) = is.map (fun j => l.getD j d) :=
      List.map_congr_left (fun j hj => hpres j (hgt j hj))
    refine ⟨l₂, ?_, ?_, ?_⟩
    · rw [swapRemoveAll, hsw, Option.some_bind]
      exact hrun
    · rw [List.map_cons]
      have e : (↑((l.getD i d) :: is.map fun j => l.getD j d) : Multiset α)
          = {l.getD i d} + ↑(is.map fun j => l.getD j d) := by
        rw [Multiset.singleton_add, Multiset.cons_coe]
      rw [e, ← hmap]
      calc (↑l₂ : Multiset α) + ({l.getD i d} + ↑(is.map fun j => l₁.getD j d))
          = (↑l₂ + ↑(is.map fun j => l₁.getD j d)) + {l.getD i d} := by abel
        _ = ↑l₁ + {l.getD i d} := by rw [hmul₂]
        _ = ↑l := hmul₁
    · rw [hlen₂, hlen₁, List.length_cons]
      omega

/-- The values of the storage at the positions not marked free, in position
order: the multiset of these is what compaction must keep. -/
def surviving_values {α : Type} (d : α) (s : ShrinkableStorage α) : List α :=
  ((List.range s.data.length).filter fun i => decide (i ∉ s.free_ids)).map
    fun i => s.data.getD i d

lemma map_getD_range {α : Type} (l : List α) (d : α) :
    (List.range l.length).map (fun i => l.getD i d) = l := by
  apply List.ext_getElem
  · simp
  · intro n h1 h2
    simp only [List.getElem_map, List.getElem_range]
    exact List.getD_eq_getElem l d h2

lemma filter_mem_perm (free : List Nat) (n : Nat) (hnd : free.Nodup)
    (hb : ∀ i ∈ free, i < n) :
    List.Perm ((List.range n).filter fun i => decide (i ∈ free)) free := by
  apply List.perm_of_nodup_nodup_toFinset_eq
  · exact (List.nodup_range n).filter _
  · exact hnd
  · apply List.toFinset.ext
    intro x
    simp only [List.mem_filter, List.mem_range, decide_eq_true_eq]
    constructor
    · exact fun hx => hx.2
    · intro hx
      exact ⟨hb x hx, hx⟩

lemma shrink_spec_aux {α : Type} (d : α) (data : List α) (free : List Nat)
    (hsorted : free.Pairwise (· < ·))
    (hbound : ∀ i ∈ free, i < data.length) :
    ∃ l', (ShrinkableStorage.mk data free).shrink =
        some (ShrinkableStorage.mk l' []) ∧
      (↑l' : Multiset α) = ↑(surviving_values d ⟨data, free⟩) ∧
      l'.length = data.length - free.length := by
  have hrev_pair : free.reverse.Pairwise (· > ·) := by
    rw [List.pairwise_reverse]
    exact hsorted
  have hrev_bound : ∀ i ∈ free.reverse, i < data.length := by
    intro i hi
    exact hbound i (List.mem_reverse.mp hi)
  obtain ⟨l', hrun, hmul, hlen⟩ :=
    swapRemoveAll_spec d free.reverse data hrev_pair hrev_bound
  have hnd : free.Nodup := hsorted.imp (fun hab => Nat.ne_of_lt hab)
  refine ⟨l', ?_, ?_, ?_⟩
  · rw [ShrinkableStorage.shrink]
    show Option.map _ (swapRemoveAll data free.reverse) = _
    rw [hrun, Option.map_some']
  · have hrevmap : (↑(free.reverse.map fun i => data.getD i d) : Multiset α)
        = ↑(free.map fun i => data.getD i d) := by
      rw [List.map_reverse, Multiset.coe_reverse]
    have hfilter :
        (↑(((List.range data.length).filter fun i => decide (i ∈ free)).map
            fun i => data.getD i d) : Multiset α)
          = ↑(free.map fun i => data.getD i d) := by
      rw [Multiset.coe_eq_coe]
      exact (filter_mem_perm free data.length hnd hbound).map _
    have hpart := (List.filter_append_perm (fun i => decide (i ∈ free))
      (List.range data.length)).map (fun i => data.getD i d)
    rw [List.map_append, map_getD_range data d] at hpart
    have hpart' :
        (↑(((List.range data.length).filter fun i => decide (i ∈ free)).map
            fun i => data.getD i d) : Multiset α) +
          ↑(((List.range data.length).filter
              fun i => !decide (i ∈ free)).map fun i => data.getD i d)
          = (↑data : Multiset α) := by
      rw [Multiset.coe_add]
      exact Multiset.coe_eq_coe.mpr hpart
    have hsurv :
        surviving_values d (ShrinkableStorage.mk data free)
          = ((List.range data.length).filter
              fun i => !decide (i ∈ free)).map fun i => data.getD i d := by
      rw [surviving_values]
      congr 1
      congr 1
      funext i
      exact decide_not
    have hA : (↑l' : Multiset α) + ↑(free.map fun i => data.getD i d)
        = ↑data := by
      rw [← hrevmap]
      exact hmul
    have hB : (↑(surviving_values d (ShrinkableStorage.mk data free))
          : Multiset α) + ↑(free.map fun i => data.getD i d) = ↑data := by
      rw [hsurv, ← hfilter]
      rw [add_comm]
      exact hpart'
    have := hA.trans hB.symm
    exact add_right_cancel this
  · rw [hlen, List.length_reverse]

/-- C1: for every compacting storage whose free set (a strictly ascending
`BTreeSet` iteration order) contains only ids below the volume, `shrink`
succeeds and returns a storage whose value multiset is exactly the original
values at the non-free positions, whose free set is empty, whose volume is
the original volume minus the free-id count, and whose iteration ids are
`0..volume` (surviving order follows the highest-to-lowest swap-removal
discipline, not insertion order); on the spec's example (values `1..9` with
the positions of `3, 5, 6, 9` freed) the result is `[1, 2, 8, 4, 7]`, i.e.
exactly the value set `{1, 2, 4, 7, 8}` with id range `0..5`. -/
theorem shrink_compacts :
    (∀ (α : Type) (d : α) (s : ShrinkableStorage α),
        s.free_ids.Pairwise (· < ·) →
        (∀ i ∈ s.free_ids, i < s.volume) →
        s.shrink.isSome = true ∧
        ∀ s', s.shrink = some s' →
          (↑s'.data : Multiset α) = ↑(surviving_values d s) ∧
          s'.free_ids = [] ∧
          s'.volume = s.volume - s.free_ids.length ∧
          s'.iter_ids = List.range s'.volume) ∧
    ((((ShrinkableStorage.new : ShrinkableStorage Nat).extend
          [1, 2, 3, 4, 5, 6, 7, 8, 9]).free_ids_batch [2, 4, 5]).bind
        (fun s => (s.free_id 8).bind ShrinkableStorage.shrink)
      = some ⟨[1, 2, 8, 4, 7], []⟩) ∧
    ([1, 2, 8, 4, 7] : List Nat).toFinset = ({1, 2, 4, 7, 8} : Finset Nat) ∧
    (ShrinkableStorage.mk ([1, 2, 8, 4, 7] : List Nat) []).volume = 5 ∧
    (ShrinkableStorage.mk ([1, 2, 8, 4, 7] : List Nat) []).iter_ids =
      List.range 5 := by
  refine ⟨?_, by decide, by decide, by decide, by decide⟩
  intro α d s hsorted hbound
  obtain ⟨data, free⟩ := s
  simp only [ShrinkableStorage.volume] at hbound ⊢
  obtain ⟨l', hs, hmul, hlen⟩ := shrink_spec_aux d data free hsorted hbound
  constructor
  · rw [hs]
    rfl
  · intro s' heq
    rw [hs, Option.some.injEq] at heq
    rw [← heq]
    exact ⟨hmul, rfl, hlen, rfl⟩

/-- Witness for C1: the general part applied to the spec's example state
(data `[1..9]`, free set `{2, 4, 5, 8}`), with the result instantiated at
the computed compaction `⟨[1, 2, 8, 4, 7], []⟩`. -/
theorem shrink_compacts_applied :
    (ShrinkableStorage.mk ([1, 2, 3, 4, 5, 6, 7, 8, 9] : List Nat)
        [2, 4, 5, 8]).shrink.isSome = true ∧
    ((↑(ShrinkableStorage.mk ([1, 2, 8, 4, 7] : List Nat) []).data
        : Multiset Nat) =
      ↑(surviving_values 0 ⟨[1, 2, 3, 4, 5, 6, 7, 8, 9], [2, 4, 5, 8]⟩) ∧
    (ShrinkableStorage.mk ([1, 2, 8, 4, 7] : List Nat) []).free_ids = [] ∧
    (ShrinkableStorage.mk ([1, 2, 8, 4, 7] : List Nat) []).volume =
      (ShrinkableStorage.mk ([1, 2, 3, 4, 5, 6, 7, 8, 9] : List Nat)
        [2, 4, 5, 8]).volume -
      (ShrinkableStorage.mk ([1, 2, 3, 4, 5, 6, 7, 8, 9] : List Nat)
        [2, 4, 5, 8]).free_ids.length ∧
    (ShrinkableStorage.mk ([1, 2, 8, 4, 7] : List Nat) []).iter_ids =
      List.range
        (ShrinkableStorage.mk ([1, 2, 8, 4, 7] : List Nat) []).volume) := by
  have h := shrink_compacts.1 Nat 0
    ⟨[1, 2, 3, 4, 5, 6, 7, 8, 9], [2, 4, 5, 8]⟩ (by decide) (by decide)
  exact ⟨h.1, h.2 ⟨[1, 2, 8, 4, 7], []⟩ (by decide)⟩
